import Mathlib

/-!
Verification development for the 1-D cutting-stock optimizer.

The repository contains two parallel implementations of the core pipeline:

* `src/algorithm.cpp` (embedded below in namespace `Alg`): cut lengths and the
  stock length are `int`s, the kerf is a `double`; the pattern search charges
  `length + kerf` for every piece, including the first, and records a
  combination only when no further piece fits.
* `src/src/algorithm.cpp` (embedded in namespace `Scaled`): all lengths are
  pre-scaled to integers (scale 1024); the pattern search charges a kerf only
  for pieces after the first and records every non-empty combination.

The aggregation step `groupPatterns` of `src/output.cpp` / `src/src/output.cpp`
is embedded in namespace `Output` (the two copies are identical up to
formatting).

Modelling conventions: C++ `int`/`long long` values are `ℤ` (the spec-level
inputs are far from overflow); `double` values are `ℚ`.  The C++ `double`
arithmetic performed by the code (sums, differences and comparisons of integer
lengths with a kerf that is an exact binary fraction) is exact, so the rational
embedding computes the same values.  The recursive pattern search is embedded
with an explicit fuel argument; each recursive call consumes at least one unit
of the (integer) remaining length whenever all cut lengths are at least 1, so
the initial fuel `stockLen.toNat + 1` is never exhausted on inputs satisfying
the documented preconditions (strictly positive lengths).
-/

unseal Rat.add Rat.sub Rat.mul Rat.inv

namespace CutStock

/-- Rounding to the nearest integer, halves away from zero, as C++
`std::round` on a real value. -/
def roundAway (q : ℚ) : ℤ :=
  if 0 ≤ q then ⌊q + 1 / 2⌋ else -⌊-q + 1 / 2⌋

/-- Removal of adjacent duplicates, as C++ `std::unique` on a sorted range. -/
def uniqAdj : List (List ℤ) → List (List ℤ)
  | [] => []
  | [a] => [a]
  | a :: b :: rest => if a = b then uniqAdj (b :: rest) else a :: uniqAdj (b :: rest)

/-- Lexicographic comparison of integer lists, as `operator<` then `≤` on
C++ `std::vector<int>`: the order used by `std::sort` on the pattern list. -/
def lexLeB : List ℤ → List ℤ → Bool
  | [], _ => true
  | _ :: _, [] => false
  | a :: as, b :: bs => if a < b then true else if b < a then false else lexLeB as bs

/-- Propositional form of `lexLeB`, for `List.insertionSort`. -/
def lexLe (a b : List ℤ) : Prop := lexLeB a b = true

instance : DecidableRel lexLe := fun a b => by
  unfold lexLe; infer_instance

/-- A stick of the integer-typed solution (`src/types.h`): the cut list, the
stock length, the used length and the waste length, all `int`. -/
structure Stick where
  cuts : List ℤ
  stock_len : ℤ
  used_len : ℤ
  waste_len : ℤ
  deriving DecidableEq, Repr

/-- The integer-typed solution (`src/types.h`): the sticks plus the aggregate
totals. -/
structure Solution where
  sticks : List Stick
  total_waste : ℤ
  num_sticks : ℤ
  deriving DecidableEq, Repr

/-- A stick of the double-typed variant (`src/include/types.h`): cut lengths,
stock length, used length and waste length are all `double`.  Cut ids are
dropped from the model: the decoder sets every id to 0 and no embedded
operation reads them. -/
structure FStick where
  cuts : List ℚ
  stock_len : ℚ
  used_len : ℚ
  waste_len : ℚ
  deriving DecidableEq

/-- A display pattern group (`Pattern` in both `types.h` variants): a cut
list together with a usage count and the used/waste lengths of the sticks it
stands for. -/
structure FPattern where
  cuts : List ℚ
  count : ℕ
  used_len : ℚ
  waste_len : ℚ
  deriving DecidableEq

namespace Alg

/-- Body of the loop of `findPatterns` in `src/algorithm.cpp` (lines
197-207): the candidates from the current start index are the suffix `S` of
the unique-cut list; a piece `c` is feasible when `remainingLen >= c + kerf`,
and a feasible piece recurses with the same suffix (the same piece may be
reused) and the piece appended to the current pattern.  The recursive call is
passed in as `rec`. -/
def loopWith (kerf : ℚ) (rec : List ℤ → ℚ → List ℤ → List (List ℤ)) :
    List ℤ → ℚ → List ℤ → List (List ℤ)
  | [], _, _ => []
  | c :: rest, r, cur =>
      (if (c : ℚ) + kerf ≤ r then rec (c :: rest) (r - ((c : ℚ) + kerf)) (cur ++ [c])
       else []) ++
        loopWith kerf rec rest r cur

/-- One call of `findPatterns` in `src/algorithm.cpp` (lines 192-214): all
candidate extensions are explored first; the current pattern is recorded
exactly when it is non-empty and no candidate fits (`!canAddMore`).  `fuel`
bounds the recursion depth; every recursive call subtracts at least 1 from the
remaining length when all cuts are positive, so `stockLen.toNat + 1` units are
never exhausted on valid inputs. -/
def node (kerf : ℚ) : ℕ → List ℤ → ℚ → List ℤ → List (List ℤ)
  | 0, _, _, _ => []
  | fuel + 1, S, r, cur =>
      loopWith kerf (node kerf fuel) S r cur ++
        (if S.any fun c => decide ((c : ℚ) + kerf ≤ r) then []
         else if cur = [] then [] else [cur])

/-- The pattern generator of `src/algorithm.cpp` (lines 179-229): deduplicate
the requested lengths, sort them descending, run the backtracking search from
the full stock length, then sort each pattern, sort the pattern list and
remove duplicates. -/
def generatePatterns (availableCuts : List ℤ) (stockLen : ℤ) (kerf : ℚ) :
    List (List ℤ) :=
  let uniqueCuts := List.insertionSort (· ≥ ·) availableCuts.dedup
  let patterns := node kerf (stockLen.toNat + 1) uniqueCuts (stockLen : ℚ) []
  uniqAdj (List.insertionSort lexLe (patterns.map (List.insertionSort (· ≤ ·))))

/-- Precise used length of one stick cut to pattern `p` (`src/algorithm.cpp`
lines 136-144): the sum of the cut lengths plus one kerf per cut, first cut
included. -/
def preciseUsedLen (kerf : ℚ) (p : List ℤ) : ℚ :=
  (p.sum : ℚ) + p.length * kerf

/-- The stick built for one unit of usage of pattern `p` (`src/algorithm.cpp`
lines 145-153): the used length is the rounded precise length, the waste the
stock length minus it. -/
def mkStick (stockLen : ℤ) (kerf : ℚ) (p : List ℤ) : Stick :=
  let usedLen := roundAway (preciseUsedLen kerf p)
  { cuts := p, stock_len := stockLen, used_len := usedLen,
    waste_len := stockLen - usedLen }

/-- Sticks contributed by one column (`src/algorithm.cpp` lines 129-155): the
solver value is rounded to the nearest integer; a zero count is skipped, a
positive count `n` materializes `n` identical sticks (a negative count also
materializes none, by the `for` loop bound). -/
def columnSticks (stockLen : ℤ) (kerf : ℚ) (p : List ℤ) (v : ℚ) : List Stick :=
  if roundAway v = 0 then []
  else List.replicate (roundAway v).toNat (mkStick stockLen kerf p)

/-- Running total of precise used length over all columns (`src/algorithm.cpp`
lines 127, 157): skipped zero columns contribute nothing, other columns
contribute their precise length times their (possibly negative) count. -/
def totalUsedPrecise (kerf : ℚ) (patterns : List (List ℤ)) (values : List ℚ) : ℚ :=
  (List.zipWith
    (fun p v => if roundAway v = 0 then 0 else preciseUsedLen kerf p * roundAway v)
    patterns values).sum

/-- Decoding of the solver column values into a `Solution`
(`src/algorithm.cpp` lines 125-164): the stick list, its length, and the
total waste rounded from the precise total. -/
def decodeSolution (stockLen : ℤ) (kerf : ℚ) (patterns : List (List ℤ))
    (values : List ℚ) : Solution :=
  let sticks := (List.zipWith (columnSticks stockLen kerf) patterns values).flatten
  { sticks := sticks
    num_sticks := sticks.length
    total_waste :=
      roundAway ((sticks.length : ℚ) * stockLen - totalUsedPrecise kerf patterns values) }

/-- The MIP model handed to the external solver (`src/algorithm.cpp` lines
36-102): one integer column per pattern with cost 1 and bounds `[0, ∞)`, one
row per distinct demanded length whose lower and upper bound both equal the
demand count, and the column-wise sparse constraint matrix whose entries are
the piece counts.  The row order follows the `unordered_map` iteration, which
is unspecified; it is modelled as first-occurrence order, and no proved
property depends on it.  Row bounds are `double`s in C++ but hold exact
integer counts. -/
structure Model where
  numCol : ℕ
  colCost : List ℚ
  colLower : List ℚ
  rowKeys : List ℤ
  rowLower : List ℤ
  rowUpper : List ℤ
  cols : List (List (ℕ × ℤ))

/-- Construction of the model from the pattern list and the demand map
(`src/algorithm.cpp` lines 39-99). -/
def buildModel (cuts : List ℤ) (patterns : List (List ℤ)) : Model :=
  { numCol := patterns.length
    colCost := List.replicate patterns.length 1
    colLower := List.replicate patterns.length 0
    rowKeys := cuts.dedup
    rowLower := cuts.dedup.map fun len => (cuts.count len : ℤ)
    rowUpper := cuts.dedup.map fun len => (cuts.count len : ℤ)
    cols := patterns.map fun p =>
      cuts.dedup.enum.filterMap fun rowLen =>
        if 0 < p.count rowLen.2 then some (rowLen.1, (p.count rowLen.2 : ℤ)) else none }

/-- Total production of length `len` over all columns for a given rounded
usage vector: the row value of the constraint matrix at that usage. -/
def rowProduction (patterns : List (List ℤ)) (usage : List ℤ) (len : ℤ) : ℤ :=
  (List.zipWith (fun p u => u * (p.count len : ℤ)) patterns usage).sum

/-- The empty solution returned on the failure paths (`Solution()` of
`src/types.h`). -/
def emptySolution : Solution := { sticks := [], total_waste := 0, num_sticks := 0 }

/-- The full pipeline of `src/algorithm.cpp` `optimizeCutting` (lines
18-165), with the external HiGHS solver abstracted as a function from the
built model to either `some` column-value vector (an `Ok` run) or `none` (any
non-`Ok` status): generate patterns, return the empty solution early if there
are none, otherwise build the model, call the solver, and decode its values;
a solver failure again yields the empty solution. -/
def optimizeCutting (solver : Model → Option (List ℚ)) (cuts : List ℤ)
    (stockLen : ℤ) (kerf : ℚ) : Solution :=
  let patterns := generatePatterns cuts stockLen kerf
  if patterns = [] then emptySolution
  else
    match solver (buildModel cuts patterns) with
    | none => emptySolution
    | some values => decodeSolution stockLen kerf patterns values

end Alg

namespace Scaled

/-- Body of the loop of `findPatterns` in `src/src/algorithm.cpp` (lines
185-197): a piece costs its length plus, unless the current pattern is still
empty, one kerf; a feasible piece recurses with the same suffix and the piece
appended.  The recursive call is passed in as `rec`. -/
def loopWith (kerf : ℤ) (rec : List ℤ → ℤ → List ℤ → List (List ℤ)) :
    List ℤ → ℤ → List ℤ → List (List ℤ)
  | [], _, _ => []
  | c :: rest, r, cur =>
      (if c + (if cur.isEmpty then 0 else kerf) ≤ r then
        rec (c :: rest) (r - (c + (if cur.isEmpty then 0 else kerf))) (cur ++ [c])
       else []) ++
        loopWith kerf rec rest r cur

/-- One call of `findPatterns` in `src/src/algorithm.cpp` (lines 177-198):
the current combination is recorded first whenever it is non-empty, before
any extension is tried, so every reachable non-empty combination is
recorded.  `fuel` bounds the recursion depth as in `Alg.node`. -/
def node (kerf : ℤ) : ℕ → List ℤ → ℤ → List ℤ → List (List ℤ)
  | 0, _, _, _ => []
  | fuel + 1, S, r, cur =>
      (if cur = [] then [] else [cur]) ++ loopWith kerf (node kerf fuel) S r cur

/-- The pattern generator of `src/src/algorithm.cpp` (lines 167-211), on the
already scaled integer lengths: deduplicate, sort descending, search, then
sort each pattern, sort the pattern list and remove duplicates. -/
def generatePatterns (availableCuts : List ℤ) (stockLen kerf : ℤ) :
    List (List ℤ) :=
  let uniqueCuts := List.insertionSort (· ≥ ·) availableCuts.dedup
  let patterns := node kerf (stockLen.toNat + 1) uniqueCuts stockLen []
  uniqAdj (List.insertionSort lexLe (patterns.map (List.insertionSort (· ≤ ·))))

/-- Cost of appending the pieces of a list to the current pattern under the
kerf rule of `src/src/algorithm.cpp` line 191: the first appended piece is
kerf-free exactly when the current pattern is still empty (`first = true`),
every later piece costs its length plus one kerf. -/
def chainCost (kerf : ℤ) : Bool → List ℤ → ℤ
  | _, [] => 0
  | first, c :: rest => c + (if first then 0 else kerf) + chainCost kerf false rest

/-- The scale factor `PRECISION_SCALE` of `src/src/algorithm.cpp` line 15. -/
def PRECISION_SCALE : ℤ := 1024

/-- Scaling of a real input to an integer (`src/src/algorithm.cpp` lines
25-35): round(x * 1024). -/
def scale (x : ℚ) : ℤ := roundAway (x * PRECISION_SCALE)

/-- Precise used length of one stick cut to scaled pattern `p`
(`src/src/algorithm.cpp` lines 131-142): the sum of the unscaled lengths
plus, for a non-empty pattern, one kerf per cut after the first. -/
def preciseUsedLen (kerf : ℚ) (p : List ℤ) : ℚ :=
  (p.map fun s : ℤ => (s : ℚ) / (PRECISION_SCALE : ℚ)).sum +
    (if p = [] then 0 else ((p.length : ℚ) - 1) * kerf)

/-- The stick built for one unit of usage of scaled pattern `p`
(`src/src/algorithm.cpp` lines 144-151); the `double` fields keep the precise
values unrounded. -/
def mkStick (stockLen kerf : ℚ) (p : List ℤ) : FStick :=
  { cuts := p.map fun s : ℤ => (s : ℚ) / (PRECISION_SCALE : ℚ)
    stock_len := stockLen
    used_len := preciseUsedLen kerf p
    waste_len := stockLen - preciseUsedLen kerf p }

/-- Sticks contributed by one column (`src/src/algorithm.cpp` lines
125-151), with the same rounding and skipping as the other variant. -/
def columnSticks (stockLen kerf : ℚ) (p : List ℤ) (v : ℚ) : List FStick :=
  if roundAway v = 0 then []
  else List.replicate (roundAway v).toNat (mkStick stockLen kerf p)

/-- Decoded stick list of the scaled variant (`src/src/algorithm.cpp` lines
125-153). -/
def decodeSticks (stockLen kerf : ℚ) (patterns : List (List ℤ))
    (values : List ℚ) : List FStick :=
  (List.zipWith (columnSticks stockLen kerf) patterns values).flatten

/-- Row keys of the scaled model (`src/src/algorithm.cpp` lines 57-62): the
distinct scaled lengths in ascending order. -/
def rowKeys (scaledCuts : List ℤ) : List ℤ :=
  List.insertionSort (· ≤ ·) scaledCuts.dedup

/-- Row bounds of the scaled model (`src/src/algorithm.cpp` lines 98-102):
lower and upper bound of every row equal to that row's demand count. -/
def rowBounds (scaledCuts : List ℤ) : List (ℤ × ℤ × ℤ) :=
  (rowKeys scaledCuts).map fun len =>
    (len, (scaledCuts.count len : ℤ), (scaledCuts.count len : ℤ))

end Scaled

namespace Output

/-- Display key of a stick (`src/output.cpp` lines 55-68): its cut lengths
sorted descending, each formatted with 5 fixed decimals.  Two lengths get the
same key entry exactly when they round to the same 5-decimal value, which is
modelled as rounding `length * 100000` to an integer. -/
def keyOf (s : FStick) : List ℤ :=
  (List.insertionSort (· ≥ ·) s.cuts).map fun l => roundAway (l * 100000)

/-- The pattern group opened for the first stick of a key (`src/output.cpp`
lines 74-81): count 1, the cuts sorted descending, used and waste length
taken from that stick. -/
def mkGroup (s : FStick) : FPattern :=
  { cuts := List.insertionSort (· ≥ ·) s.cuts
    count := 1
    used_len := s.used_len
    waste_len := s.waste_len }

/-- Insertion of one stick into the keyed pattern map (`src/output.cpp`
lines 70-82): an existing entry with the stick's key gets its count bumped,
otherwise a new entry is opened.  The C++ `std::map` is modelled as an
association list; it never holds two entries with the same key, so the order
of entries does not affect the grouped multiset. -/
def addStick : List (List ℤ × FPattern) → FStick → List (List ℤ × FPattern)
  | [], s => [(keyOf s, mkGroup s)]
  | (k, g) :: rest, s =>
      if keyOf s = k then (k, { g with count := g.count + 1 }) :: rest
      else (k, g) :: addStick rest s

/-- The output comparator of `src/output.cpp` lines 90-96: descending count,
ties broken by descending used length. -/
def groupBefore (a b : FPattern) : Prop :=
  b.count < a.count ∨ (a.count = b.count ∧ b.used_len ≤ a.used_len)

instance : DecidableRel groupBefore := fun a b => by
  unfold groupBefore; infer_instance

/-- The aggregator `groupPatterns` of `src/output.cpp` lines 51-99 (the copy
in `src/src/output.cpp` lines 52-100 is identical up to formatting): fold the
sticks into the keyed map, then sort the groups by the display comparator. -/
def groupPatterns (sticks : List FStick) : List FPattern :=
  List.insertionSort groupBefore ((sticks.foldl addStick []).map Prod.snd)

end Output

/-! Basic facts about the rounding and list helpers. -/

theorem roundAway_intCast (n : ℤ) : roundAway (n : ℚ) = n := by
  unfold roundAway
  rcases le_or_lt 0 ((n : ℚ)) with h | h
  · rw [if_pos h]
    rw [show ((n : ℚ) + 1 / 2) = (1 : ℚ) / 2 + n by ring, Int.floor_add_int]
    norm_num
  · rw [if_neg (not_le.mpr h)]
    rw [show (-(n : ℚ) + 1 / 2) = (1 : ℚ) / 2 + (-n : ℤ) by push_cast; ring,
      Int.floor_add_int]
    norm_num

theorem roundAway_le_int {q : ℚ} {n : ℤ} (hq : q ≤ (n : ℚ)) (hn : 0 ≤ n) :
    roundAway q ≤ n := by
  unfold roundAway
  rcases le_or_lt 0 q with h | h
  · rw [if_pos h]
    have : (q + 1 / 2 : ℚ) ≤ (1 : ℚ) / 2 + n := by linarith
    calc ⌊q + 1 / 2⌋ ≤ ⌊(1 : ℚ) / 2 + n⌋ := Int.floor_le_floor this
      _ = ⌊(1 : ℚ) / 2⌋ + n := Int.floor_add_int _ _
      _ ≤ n := by norm_num
  · rw [if_neg (not_le.mpr h)]
    have h0 : (0 : ℤ) ≤ ⌊-q + 1 / 2⌋ := Int.floor_nonneg.mpr (by linarith)
    omega

theorem roundAway_eq_zero {v : ℚ} (h1 : -(1 / 2) < v) (h2 : v < 1 / 2) :
    roundAway v = 0 := by
  unfold roundAway
  rcases le_or_lt 0 v with h | h
  · rw [if_pos h]
    exact Int.floor_eq_zero_iff.mpr ⟨by linarith, by linarith⟩
  · rw [if_neg (not_le.mpr h)]
    have : ⌊-v + 1 / 2⌋ = 0 := Int.floor_eq_zero_iff.mpr ⟨by linarith, by linarith⟩
    omega

theorem mem_uniqAdj {x : List ℤ} : ∀ {l : List (List ℤ)}, x ∈ uniqAdj l ↔ x ∈ l
  | [] => Iff.rfl
  | [a] => Iff.rfl
  | a :: b :: rest => by
    unfold uniqAdj
    by_cases hab : a = b
    · rw [if_pos hab]
      constructor
      · intro hx
        exact List.mem_cons_of_mem a (mem_uniqAdj.mp hx)
      · intro hx
        rcases List.mem_cons.mp hx with h | h
        · exact mem_uniqAdj.mpr (h ▸ hab ▸ List.mem_cons_self b rest)
        · exact mem_uniqAdj.mpr h
    · rw [if_neg hab]
      constructor
      · intro hx
        rcases List.mem_cons.mp hx with h | h
        · exact h ▸ List.mem_cons_self a _
        · exact List.mem_cons_of_mem a (mem_uniqAdj.mp h)
      · intro hx
        rcases List.mem_cons.mp hx with h | h
        · exact h ▸ List.mem_cons_self a _
        · exact List.mem_cons_of_mem a (mem_uniqAdj.mpr h)

theorem mem_of_getLast?_eq {m : ℤ} : ∀ {l : List ℤ}, l.getLast? = some m → m ∈ l
  | [], h => by simp at h
  | [a], h => by
    simp only [List.getLast?_singleton, Option.some.injEq] at h
    exact h ▸ List.mem_singleton_self a
  | a :: b :: t, h => by
    rw [List.getLast?_cons_cons] at h
    exact List.mem_cons_of_mem a (mem_of_getLast?_eq h)

theorem getLast?_le_of_sorted {m : ℤ} :
    ∀ {l : List ℤ}, l.Sorted (· ≥ ·) → l.getLast? = some m → ∀ x ∈ l, m ≤ x
  | [], _, h => by simp at h
  | [a], _, h => by
    simp only [List.getLast?_singleton, Option.some.injEq] at h
    intro x hx
    rw [List.mem_singleton.mp hx, ← h]
  | a :: b :: t, hs, h => by
    rw [List.getLast?_cons_cons] at h
    have hs' := List.sorted_cons.mp hs
    intro x hx
    rcases List.mem_cons.mp hx with rfl | hx'
    · exact le_trans
        (getLast?_le_of_sorted hs'.2 h b (List.mem_cons_self b t))
        (hs'.1 b (List.mem_cons_self b t))
    · exact getLast?_le_of_sorted hs'.2 h x hx'

/-! Facts about the pattern search of `src/algorithm.cpp`. -/

namespace Alg

theorem preciseUsedLen_nil (kerf : ℚ) : preciseUsedLen kerf [] = 0 := by
  simp [preciseUsedLen]

theorem preciseUsedLen_cons (kerf : ℚ) (c : ℤ) (q : List ℤ) :
    preciseUsedLen kerf (c :: q) = ((c : ℚ) + kerf) + preciseUsedLen kerf q := by
  simp only [preciseUsedLen, List.sum_cons, List.length_cons]
  push_cast
  ring

theorem preciseUsedLen_perm (kerf : ℚ) {p q : List ℤ} (h : p.Perm q) :
    preciseUsedLen kerf p = preciseUsedLen kerf q := by
  simp only [preciseUsedLen, h.sum_eq, h.length_eq]

theorem loopWith_sound (kerf : ℚ) (rec : List ℤ → ℚ → List ℤ → List (List ℤ))
    (hrec : ∀ S r cur, 0 ≤ r → ∀ p ∈ rec S r cur,
      ∃ q, p = cur ++ q ∧ preciseUsedLen kerf q ≤ r) :
    ∀ S r cur, 0 ≤ r → ∀ p ∈ loopWith kerf rec S r cur,
      ∃ q, p = cur ++ q ∧ preciseUsedLen kerf q ≤ r
  | [], r, cur, _, p, hp => by simp [loopWith] at hp
  | c :: rest, r, cur, hr, p, hp => by
    rw [loopWith] at hp
    rcases List.mem_append.mp hp with h | h
    · by_cases hfit : (c : ℚ) + kerf ≤ r
      · rw [if_pos hfit] at h
        obtain ⟨q', hq', hcost⟩ :=
          hrec (c :: rest) (r - ((c : ℚ) + kerf)) (cur ++ [c])
            (by linarith) p h
        refine ⟨c :: q', by simpa [List.append_assoc] using hq', ?_⟩
        rw [preciseUsedLen_cons]
        linarith
      · rw [if_neg hfit] at h
        exact absurd h (List.not_mem_nil p)
    · exact loopWith_sound kerf rec hrec rest r cur hr p h

theorem node_sound (kerf : ℚ) :
    ∀ (fuel : ℕ) (S : List ℤ) (r : ℚ) (cur : List ℤ), 0 ≤ r →
      ∀ p ∈ node kerf fuel S r cur, ∃ q, p = cur ++ q ∧ preciseUsedLen kerf q ≤ r
  | 0, S, r, cur, _, p, hp => by simp [node] at hp
  | fuel + 1, S, r, cur, hr, p, hp => by
    rw [node] at hp
    rcases List.mem_append.mp hp with h | h
    · exact loopWith_sound kerf (node kerf fuel)
        (fun S' r' cur' hr' p' hp' => node_sound kerf fuel S' r' cur' hr' p' hp')
        S r cur hr p h
    · by_cases hany : (S.any fun c => decide ((c : ℚ) + kerf ≤ r)) = true
      · rw [if_pos hany] at h
        exact absurd h (List.not_mem_nil p)
      · rw [if_neg hany] at h
        by_cases hcur : cur = []
        · rw [if_pos hcur] at h
          exact absurd h (List.not_mem_nil p)
        · rw [if_neg hcur] at h
          refine ⟨[], by simpa using List.mem_singleton.mp h, ?_⟩
          rw [preciseUsedLen_nil]
          exact hr

theorem generatePatterns_sound {availableCuts : List ℤ} {stockLen : ℤ} {kerf : ℚ}
    (hstock : (0 : ℚ) ≤ (stockLen : ℚ)) :
    ∀ p ∈ generatePatterns availableCuts stockLen kerf,
      preciseUsedLen kerf p ≤ (stockLen : ℚ) := by
  intro p hp
  unfold generatePatterns at hp
  rw [mem_uniqAdj, List.mem_insertionSort] at hp
  obtain ⟨p0, hp0, rfl⟩ := List.mem_map.mp hp
  obtain ⟨q, hq, hcost⟩ :=
    node_sound kerf (stockLen.toNat + 1)
      (List.insertionSort (· ≥ ·) availableCuts.dedup) (stockLen : ℚ) []
      hstock p0 hp0
  rw [preciseUsedLen_perm kerf (List.perm_insertionSort (· ≤ ·) p0)]
  rw [hq, List.nil_append]
  exact hcost

theorem loopWith_max (kerf : ℚ) (m : ℤ) (rec : List ℤ → ℚ → List ℤ → List (List ℤ))
    (hrec : ∀ S r cur, S.getLast? = some m → ∀ p ∈ rec S r cur,
      ∃ q, p = cur ++ q ∧ r - preciseUsedLen kerf q < (m : ℚ) + kerf) :
    ∀ S r cur, S.getLast? = some m → ∀ p ∈ loopWith kerf rec S r cur,
      ∃ q, p = cur ++ q ∧ r - preciseUsedLen kerf q < (m : ℚ) + kerf
  | [], r, cur, _, p, hp => by simp [loopWith] at hp
  | c :: rest, r, cur, hlast, p, hp => by
    rw [loopWith] at hp
    rcases List.mem_append.mp hp with h | h
    · by_cases hfit : (c : ℚ) + kerf ≤ r
      · rw [if_pos hfit] at h
        obtain ⟨q', hq', hlt⟩ :=
          hrec (c :: rest) (r - ((c : ℚ) + kerf)) (cur ++ [c]) hlast p h
        refine ⟨c :: q', by simpa [List.append_assoc] using hq', ?_⟩
        rw [preciseUsedLen_cons]
        linarith
      · rw [if_neg hfit] at h
        exact absurd h (List.not_mem_nil p)
    · match rest, hlast with
      | [], hlast => simp [loopWith] at h
      | b :: t, hlast =>
        exact loopWith_max kerf m rec hrec (b :: t) r cur
          (by rw [List.getLast?_cons_cons] at hlast; exact hlast) p h

theorem node_max (kerf : ℚ) (m : ℤ) :
    ∀ (fuel : ℕ) (S : List ℤ) (r : ℚ) (cur : List ℤ), S.getLast? = some m →
      ∀ p ∈ node kerf fuel S r cur,
        ∃ q, p = cur ++ q ∧ r - preciseUsedLen kerf q < (m : ℚ) + kerf
  | 0, S, r, cur, _, p, hp => by simp [node] at hp
  | fuel + 1, S, r, cur, hlast, p, hp => by
    rw [node] at hp
    rcases List.mem_append.mp hp with h | h
    · exact loopWith_max kerf m (node kerf fuel)
        (fun S' r' cur' hl' p' hp' => node_max kerf m fuel S' r' cur' hl' p' hp')
        S r cur hlast p h
    · by_cases hany : (S.any fun c => decide ((c : ℚ) + kerf ≤ r)) = true
      · rw [if_pos hany] at h
        exact absurd h (List.not_mem_nil p)
      · rw [if_neg hany] at h
        by_cases hcur : cur = []
        · rw [if_pos hcur] at h
          exact absurd h (List.not_mem_nil p)
        · rw [if_neg hcur] at h
          refine ⟨[], by simpa using List.mem_singleton.mp h, ?_⟩
          rw [preciseUsedLen_nil]
          have hm : ¬((m : ℚ) + kerf ≤ r) := by
            simp only [List.any_eq_true, decide_eq_true_eq, not_exists, not_and] at hany
            exact fun hle => (hany m (mem_of_getLast?_eq hlast)) hle
          linarith [not_le.mp hm]

theorem loopWith_ne_nil (kerf : ℚ) (rec : List ℤ → ℚ → List ℤ → List (List ℤ))
    (hrec : ∀ S r cur p, p ∈ rec S r cur → p ≠ []) :
    ∀ (S : List ℤ) (r : ℚ) (cur : List ℤ) (p : List ℤ),
      p ∈ loopWith kerf rec S r cur → p ≠ []
  | [], r, cur, p, hp => by simp [loopWith] at hp
  | c :: rest, r, cur, p, hp => by
    rw [loopWith] at hp
    rcases List.mem_append.mp hp with h | h
    · by_cases hfit : (c : ℚ) + kerf ≤ r
      · rw [if_pos hfit] at h
        exact hrec (c :: rest) (r - ((c : ℚ) + kerf)) (cur ++ [c]) p h
      · rw [if_neg hfit] at h
        exact absurd h (List.not_mem_nil p)
    · exact loopWith_ne_nil kerf rec hrec rest r cur p h

theorem node_ne_nil (kerf : ℚ) :
    ∀ (fuel : ℕ) (S : List ℤ) (r : ℚ) (cur : List ℤ),
      ∀ p ∈ node kerf fuel S r cur, p ≠ []
  | 0, S, r, cur, p, hp => by simp [node] at hp
  | fuel + 1, S, r, cur, p, hp => by
    rw [node] at hp
    rcases List.mem_append.mp hp with h | h
    · exact loopWith_ne_nil kerf (node kerf fuel)
        (fun S' r' cur' p' hp' => node_ne_nil kerf fuel S' r' cur' p' hp')
        S r cur p h
    · by_cases hany : (S.any fun c => decide ((c : ℚ) + kerf ≤ r)) = true
      · rw [if_pos hany] at h
        exact absurd h (List.not_mem_nil p)
      · rw [if_neg hany] at h
        by_cases hcur : cur = []
        · rw [if_pos hcur] at h
          exact absurd h (List.not_mem_nil p)
        · rw [if_neg hcur] at h
          exact (List.mem_singleton.mp h) ▸ hcur

theorem loopWith_eq_nil (kerf : ℚ) (rec : List ℤ → ℚ → List ℤ → List (List ℤ)) :
    ∀ (S : List ℤ) (r : ℚ) (cur : List ℤ),
      (∀ c ∈ S, ¬((c : ℚ) + kerf ≤ r)) → loopWith kerf rec S r cur = []
  | [], _, _, _ => rfl
  | c :: rest, r, cur, h => by
    rw [loopWith, if_neg (h c (List.mem_cons_self c rest)),
      loopWith_eq_nil kerf rec rest r cur
        (fun c' hc' => h c' (List.mem_cons_of_mem c hc')), List.nil_append]

theorem generatePatterns_eq_nil {availableCuts : List ℤ} {stockLen : ℤ} {kerf : ℚ}
    (h : ∀ L ∈ availableCuts, ¬((L : ℚ) + kerf ≤ (stockLen : ℚ))) :
    generatePatterns availableCuts stockLen kerf = [] := by
  have hnode : node kerf (stockLen.toNat + 1)
      (List.insertionSort (· ≥ ·) availableCuts.dedup) (stockLen : ℚ) [] = [] := by
    rw [node, loopWith_eq_nil kerf _ _ _ _
      (fun c hc => h c (List.mem_dedup.mp ((List.mem_insertionSort _).mp hc)))]
    simp
  have hdef : generatePatterns availableCuts stockLen kerf =
      uniqAdj (List.insertionSort lexLe
        ((node kerf (stockLen.toNat + 1)
          (List.insertionSort (· ≥ ·) availableCuts.dedup) (stockLen : ℚ) []).map
            (List.insertionSort (· ≤ ·)))) := rfl
  rw [hdef, hnode]
  rfl

end Alg

/-! Facts about the pattern search of `src/src/algorithm.cpp`. -/

namespace Scaled

theorem chainCost_false_eq (kerf : ℤ) :
    ∀ q : List ℤ, chainCost kerf false q = q.sum + (q.length : ℤ) * kerf
  | [] => by simp [chainCost]
  | c :: rest => by
    rw [chainCost, chainCost_false_eq kerf rest]
    simp only [List.sum_cons, List.length_cons, if_neg Bool.false_ne_true]
    push_cast
    ring

theorem chainCost_true_eq (kerf : ℤ) {q : List ℤ} (hq : q ≠ []) :
    chainCost kerf true q = q.sum + ((q.length : ℤ) - 1) * kerf := by
  match q, hq with
  | c :: rest, _ =>
    rw [chainCost, chainCost_false_eq kerf rest]
    simp only [List.sum_cons, List.length_cons, if_pos rfl]
    push_cast
    ring

theorem loopWith_cost (kerf : ℤ) (rec : List ℤ → ℤ → List ℤ → List (List ℤ))
    (hrec : ∀ S r cur, 0 ≤ r → ∀ p ∈ rec S r cur,
      ∃ q, p = cur ++ q ∧ chainCost kerf cur.isEmpty q ≤ r) :
    ∀ S r cur, 0 ≤ r → ∀ p ∈ loopWith kerf rec S r cur,
      ∃ q, p = cur ++ q ∧ chainCost kerf cur.isEmpty q ≤ r
  | [], r, cur, _, p, hp => by simp [loopWith] at hp
  | c :: rest, r, cur, hr, p, hp => by
    rw [loopWith] at hp
    rcases List.mem_append.mp hp with h | h
    · by_cases hfit : c + (if cur.isEmpty then 0 else kerf) ≤ r
      · rw [if_pos hfit] at h
        obtain ⟨q', hq', hcost⟩ :=
          hrec (c :: rest) (r - (c + if cur.isEmpty then 0 else kerf)) (cur ++ [c])
            (by omega) p h
        have hemp : (cur ++ [c]).isEmpty = false := by simp
        rw [hemp] at hcost
        refine ⟨c :: q', by simpa [List.append_assoc] using hq', ?_⟩
        rw [chainCost]
        omega
      · rw [if_neg hfit] at h
        exact absurd h (List.not_mem_nil p)
    · exact loopWith_cost kerf rec hrec rest r cur hr p h

theorem node_cost (kerf : ℤ) :
    ∀ (fuel : ℕ) (S : List ℤ) (r : ℤ) (cur : List ℤ), 0 ≤ r →
      ∀ p ∈ node kerf fuel S r cur,
        ∃ q, p = cur ++ q ∧ chainCost kerf cur.isEmpty q ≤ r
  | 0, S, r, cur, _, p, hp => by simp [node] at hp
  | fuel + 1, S, r, cur, hr, p, hp => by
    rw [node] at hp
    rcases List.mem_append.mp hp with h | h
    · by_cases hcur : cur = []
      · rw [if_pos hcur] at h
        exact absurd h (List.not_mem_nil p)
      · rw [if_neg hcur] at h
        refine ⟨[], by simpa using List.mem_singleton.mp h, ?_⟩
        rw [chainCost]
        exact hr
    · exact loopWith_cost kerf (node kerf fuel)
        (fun S' r' cur' hr' p' hp' => node_cost kerf fuel S' r' cur' hr' p' hp')
        S r cur hr p h

theorem loopWith_nonnil (kerf : ℤ) (rec : List ℤ → ℤ → List ℤ → List (List ℤ))
    (hrec : ∀ S r cur p, p ∈ rec S r cur → p ≠ []) :
    ∀ (S : List ℤ) (r : ℤ) (cur : List ℤ) (p : List ℤ),
      p ∈ loopWith kerf rec S r cur → p ≠ []
  | [], r, cur, p, hp => by simp [loopWith] at hp
  | c :: rest, r, cur, p, hp => by
    rw [loopWith] at hp
    rcases List.mem_append.mp hp with h | h
    · by_cases hfit : c + (if cur.isEmpty then 0 else kerf) ≤ r
      · rw [if_pos hfit] at h
        exact hrec (c :: rest) (r - (c + if cur.isEmpty then 0 else kerf))
          (cur ++ [c]) p h
      · rw [if_neg hfit] at h
        exact absurd h (List.not_mem_nil p)
    · exact loopWith_nonnil kerf rec hrec rest r cur p h

theorem node_nonnil (kerf : ℤ) :
    ∀ (fuel : ℕ) (S : List ℤ) (r : ℤ) (cur : List ℤ),
      ∀ p ∈ node kerf fuel S r cur, p ≠ []
  | 0, S, r, cur, p, hp => by simp [node] at hp
  | fuel + 1, S, r, cur, p, hp => by
    rw [node] at hp
    rcases List.mem_append.mp hp with h | h
    · by_cases hcur : cur = []
      · rw [if_pos hcur] at h
        exact absurd h (List.not_mem_nil p)
      · rw [if_neg hcur] at h
        exact (List.mem_singleton.mp h) ▸ hcur
    · exact loopWith_nonnil kerf (node kerf fuel)
        (fun S' r' cur' p' hp' => node_nonnil kerf fuel S' r' cur' p' hp')
        S r cur p h

theorem generatePatterns_cost {availableCuts : List ℤ} {stockLen kerf : ℤ}
    (hstock : 0 ≤ stockLen) :
    ∀ p ∈ generatePatterns availableCuts stockLen kerf,
      p.sum + ((p.length : ℤ) - 1) * kerf ≤ stockLen := by
  intro p hp
  unfold generatePatterns at hp
  rw [mem_uniqAdj, List.mem_insertionSort] at hp
  obtain ⟨p0, hp0, rfl⟩ := List.mem_map.mp hp
  obtain ⟨q, hq, hcost⟩ :=
    node_cost kerf (stockLen.toNat + 1)
      (List.insertionSort (· ≥ ·) availableCuts.dedup) stockLen []
      hstock p0 hp0
  rw [List.nil_append] at hq
  subst hq
  have hperm := List.perm_insertionSort (· ≤ ·) p0
  rw [hperm.sum_eq, hperm.length_eq]
  have hne : p0 ≠ [] :=
    node_nonnil kerf (stockLen.toNat + 1) _ stockLen [] p0 hp0
  simp only [List.isEmpty_nil] at hcost
  rwa [chainCost_true_eq kerf hne] at hcost

/-- Membership in the loop output from any suffix position: if `c :: rest` is
a suffix of the candidate list and the piece `c` fits, everything the child
call returns is in the loop's output. -/
theorem mem_loopWith (kerf : ℤ) (rec : List ℤ → ℤ → List ℤ → List (List ℤ))
    {c : ℤ} {rest : List ℤ} {x : List ℤ} :
    ∀ (S : List ℤ) (r : ℤ) (cur : List ℤ), (c :: rest) <:+ S →
      c + (if cur.isEmpty then 0 else kerf) ≤ r →
      x ∈ rec (c :: rest) (r - (c + if cur.isEmpty then 0 else kerf)) (cur ++ [c]) →
      x ∈ loopWith kerf rec S r cur
  | [], r, cur, hsuf, _, _ => absurd (List.suffix_nil.mp hsuf) (by simp)
  | c0 :: rest0, r, cur, hsuf, hfit, hx => by
    rw [loopWith]
    rcases List.suffix_cons_iff.mp hsuf with heq | hsuf'
    · obtain ⟨rfl, rfl⟩ : c = c0 ∧ rest = rest0 := by
        injection heq with h1 h2
        exact ⟨h1, h2⟩
      exact List.mem_append_left _ (by rwa [if_pos hfit])
    · exact List.mem_append_right _
        (mem_loopWith kerf rec rest0 r cur hsuf' hfit hx)

/-- Completeness of the scaled generator for one-piece patterns: any demanded
length that fits in the stock on its own (no kerf for a first piece) shows up
as a singleton pattern. -/
theorem singleton_mem_generatePatterns {availableCuts : List ℤ}
    {stockLen kerf L : ℤ} (hL1 : 1 ≤ L) (hmem : L ∈ availableCuts)
    (hfit : L ≤ stockLen) :
    [L] ∈ generatePatterns availableCuts stockLen kerf := by
  have huniq : L ∈ List.insertionSort (· ≥ ·) availableCuts.dedup :=
    (List.mem_insertionSort _).mpr (List.mem_dedup.mpr hmem)
  obtain ⟨s, t, hst⟩ := List.append_of_mem huniq
  have hsuf : (L :: t) <:+ List.insertionSort (· ≥ ·) availableCuts.dedup := by
    rw [hst]
    exact List.suffix_append s (L :: t)
  obtain ⟨f, hf⟩ : ∃ f, stockLen.toNat = f + 1 :=
    ⟨stockLen.toNat - 1, by omega⟩
  have hchild : [L] ∈ node kerf stockLen.toNat (L :: t) (stockLen - (L + 0)) ([] ++ [L]) := by
    rw [hf, node]
    exact List.mem_append_left _ (by simp)
  have hpats : [L] ∈ node kerf (stockLen.toNat + 1)
      (List.insertionSort (· ≥ ·) availableCuts.dedup) stockLen [] := by
    rw [node, if_pos rfl, List.nil_append]
    refine mem_loopWith kerf (node kerf stockLen.toNat) _ stockLen [] hsuf ?_ ?_
    · simpa using hfit
    · simpa using hchild
  unfold generatePatterns
  rw [mem_uniqAdj, List.mem_insertionSort]
  exact List.mem_map.mpr ⟨[L], hpats, rfl⟩

end Scaled

/-! Facts about the solution decoders. -/

theorem sum_map_flatten {α M : Type*} [AddCommMonoid M] (f : α → M) :
    ∀ L : List (List α), (L.flatten.map f).sum = (L.map fun xs => (xs.map f).sum).sum
  | [] => rfl
  | xs :: L => by
    rw [List.flatten_cons, List.map_append, List.sum_append, List.map_cons,
      List.sum_cons, sum_map_flatten f L]

theorem exists_of_mem_zipWith {α β γ : Type*} {g : α → β → γ} :
    ∀ {as : List α} {bs : List β} {x : γ}, x ∈ List.zipWith g as bs →
      ∃ a ∈ as, ∃ b ∈ bs, x = g a b
  | [], _, x, h => by simp at h
  | _ :: _, [], x, h => by simp at h
  | a :: as, b :: bs, x, h => by
    rw [List.zipWith_cons_cons] at h
    rcases List.mem_cons.mp h with h | h
    · exact ⟨a, List.mem_cons_self a as, b, List.mem_cons_self b bs, h⟩
    · obtain ⟨a', ha', b', hb', hx⟩ := exists_of_mem_zipWith h
      exact ⟨a', List.mem_cons_of_mem a ha', b', List.mem_cons_of_mem b hb', hx⟩

namespace Alg

theorem length_columnSticks (stockLen : ℤ) (kerf : ℚ) (p : List ℤ) (v : ℚ) :
    (columnSticks stockLen kerf p v).length = (roundAway v).toNat := by
  unfold columnSticks
  by_cases h : roundAway v = 0
  · rw [if_pos h, h]
    rfl
  · rw [if_neg h, List.length_replicate]

theorem sum_map_columnSticks {M : Type*} [AddCommMonoid M] (f : Stick → M)
    (stockLen : ℤ) (kerf : ℚ) (p : List ℤ) (v : ℚ) :
    ((columnSticks stockLen kerf p v).map f).sum =
      (roundAway v).toNat • f (mkStick stockLen kerf p) := by
  unfold columnSticks
  by_cases h : roundAway v = 0
  · rw [if_pos h, h]
    simp
  · rw [if_neg h, List.map_replicate, List.sum_replicate]

theorem eq_mkStick_of_mem_columnSticks {stockLen : ℤ} {kerf : ℚ} {p : List ℤ}
    {v : ℚ} {s : Stick} (h : s ∈ columnSticks stockLen kerf p v) :
    s = mkStick stockLen kerf p := by
  unfold columnSticks at h
  by_cases h0 : roundAway v = 0
  · rw [if_pos h0] at h
    exact absurd h (List.not_mem_nil s)
  · rw [if_neg h0] at h
    exact List.eq_of_mem_replicate h

theorem mem_decodeSolution_sticks {stockLen : ℤ} {kerf : ℚ}
    {patterns : List (List ℤ)} {values : List ℚ} {s : Stick}
    (h : s ∈ (decodeSolution stockLen kerf patterns values).sticks) :
    ∃ p ∈ patterns, s = mkStick stockLen kerf p := by
  obtain ⟨l, hl, hs⟩ := List.mem_flatten.mp h
  obtain ⟨p, hp, v, _, rfl⟩ := exists_of_mem_zipWith hl
  exact ⟨p, hp, eq_mkStick_of_mem_columnSticks hs⟩

theorem decodeSolution_map_sum {M : Type*} [AddCommMonoid M] (f : Stick → M)
    (stockLen : ℤ) (kerf : ℚ) (patterns : List (List ℤ)) (values : List ℚ) :
    (((decodeSolution stockLen kerf patterns values).sticks).map f).sum =
      (List.zipWith (fun p v => (roundAway v).toNat • f (mkStick stockLen kerf p))
        patterns values).sum := by
  rw [show (((decodeSolution stockLen kerf patterns values).sticks).map f).sum =
      ((List.zipWith (columnSticks stockLen kerf) patterns values).flatten.map f).sum
    from rfl]
  rw [sum_map_flatten f, List.map_zipWith]
  have hfun : (fun p v => ((columnSticks stockLen kerf p v).map f).sum) =
      fun p v => (roundAway v).toNat • f (mkStick stockLen kerf p) := by
    funext p v
    exact sum_map_columnSticks f stockLen kerf p v
  rw [hfun]

theorem decodeSolution_length (stockLen : ℤ) (kerf : ℚ)
    (patterns : List (List ℤ)) (values : List ℚ) :
    ((decodeSolution stockLen kerf patterns values).sticks).length =
      (List.zipWith (fun _ v => (roundAway v).toNat) patterns values).sum := by
  rw [show ((decodeSolution stockLen kerf patterns values).sticks).length =
      ((List.zipWith (columnSticks stockLen kerf) patterns values).flatten).length
    from rfl]
  rw [List.length_flatten, List.map_zipWith]
  have hfun : (fun p v => (columnSticks stockLen kerf p v).length) =
      fun (_ : List ℤ) v => (roundAway v).toNat := by
    funext p v
    exact length_columnSticks stockLen kerf p v
  rw [hfun]

theorem decodeSolution_num_sticks (stockLen : ℤ) (kerf : ℚ)
    (patterns : List (List ℤ)) (values : List ℚ) :
    (decodeSolution stockLen kerf patterns values).num_sticks =
      (((decodeSolution stockLen kerf patterns values).sticks).length : ℤ) := rfl

theorem decodeSolution_total_waste (stockLen : ℤ) (kerf : ℚ)
    (patterns : List (List ℤ)) (values : List ℚ) :
    (decodeSolution stockLen kerf patterns values).total_waste =
      roundAway ((((decodeSolution stockLen kerf patterns values).sticks).length : ℚ) *
        (stockLen : ℚ) - totalUsedPrecise kerf patterns values) := rfl

theorem count_decodeSolution (L : ℤ) (stockLen : ℤ) (kerf : ℚ)
    (patterns : List (List ℤ)) (values : List ℚ) :
    (((decodeSolution stockLen kerf patterns values).sticks).map
        fun s => s.cuts.count L).sum =
      (List.zipWith (fun p v => (roundAway v).toNat * p.count L) patterns values).sum := by
  rw [decodeSolution_map_sum (fun s => s.cuts.count L)]
  have hfun : (fun (p : List ℤ) (v : ℚ) =>
        (roundAway v).toNat • (mkStick stockLen kerf p).cuts.count L) =
      fun p v => (roundAway v).toNat * p.count L := by
    funext p v
    rw [smul_eq_mul]
    rfl
  rw [hfun]

theorem cast_count_sum (L : ℤ) :
    ∀ (patterns : List (List ℤ)) (values : List ℚ),
      (∀ v ∈ values, 0 ≤ roundAway v) →
      ((List.zipWith (fun p v => (roundAway v).toNat * p.count L) patterns values).sum : ℤ) =
        rowProduction patterns (values.map roundAway) L
  | [], values, _ => by simp [rowProduction]
  | p :: patterns, [], _ => by simp [rowProduction]
  | p :: patterns, v :: values, hnn => by
    have htail := cast_count_sum L patterns values
      (fun v' hv' => hnn v' (List.mem_cons_of_mem v hv'))
    unfold rowProduction at htail ⊢
    rw [List.map_cons, List.zipWith_cons_cons, List.zipWith_cons_cons,
      List.sum_cons, List.sum_cons, Nat.cast_add, Nat.cast_mul, htail,
      Int.toNat_of_nonneg (hnn v (List.mem_cons_self v values))]

theorem totalUsedPrecise_eq (kerf : ℚ) (patterns : List (List ℤ)) (values : List ℚ) :
    totalUsedPrecise kerf patterns values =
      (List.zipWith (fun p v => preciseUsedLen kerf p * (roundAway v : ℚ))
        patterns values).sum := by
  unfold totalUsedPrecise
  have hfun : (fun (p : List ℤ) (v : ℚ) =>
        if roundAway v = 0 then 0 else preciseUsedLen kerf p * (roundAway v : ℚ)) =
      fun p v => preciseUsedLen kerf p * (roundAway v : ℚ) := by
    funext p v
    by_cases h : roundAway v = 0
    · rw [if_pos h, h]
      simp
    · rw [if_neg h]
  rw [hfun]

theorem preciseUsedLen_intCast {kerf : ℚ} (hden : kerf.den = 1) (p : List ℤ) :
    preciseUsedLen kerf p = ((p.sum + (p.length : ℤ) * kerf.num : ℤ) : ℚ) := by
  obtain ⟨k, hk⟩ : ∃ k : ℤ, (k : ℚ) = kerf :=
    ⟨kerf.num, Rat.coe_int_num_of_den_eq_one hden⟩
  unfold preciseUsedLen
  rw [← hk, Rat.num_intCast]
  push_cast
  ring

theorem totalUsed_intCast {kerf : ℚ} (hden : kerf.den = 1) :
    ∀ (patterns : List (List ℤ)) (values : List ℚ),
      totalUsedPrecise kerf patterns values =
        ((List.zipWith
          (fun p v => (p.sum + (p.length : ℤ) * kerf.num) * roundAway v)
          patterns values).sum : ℚ) := by
  have aux : ∀ (patterns : List (List ℤ)) (values : List ℚ),
      (List.zipWith (fun p v => preciseUsedLen kerf p * (roundAway v : ℚ))
        patterns values).sum =
      ((List.zipWith
        (fun p v => (p.sum + (p.length : ℤ) * kerf.num) * roundAway v)
        patterns values).sum : ℚ) := by
    intro patterns
    induction patterns with
    | nil => intro values; simp
    | cons p ps ih =>
      intro values
      match values with
      | [] => simp
      | v :: vs =>
        rw [List.zipWith_cons_cons, List.zipWith_cons_cons, List.sum_cons,
          List.sum_cons, ih vs, preciseUsedLen_intCast hden]
        push_cast
        ring
  intro patterns values
  rw [totalUsedPrecise_eq, aux]

theorem smul_sum_eq (g : List ℤ → ℤ) :
    ∀ (patterns : List (List ℤ)) (values : List ℚ),
      (∀ v ∈ values, 0 ≤ roundAway v) →
      (List.zipWith (fun p v => (roundAway v).toNat • g p) patterns values).sum =
        (List.zipWith (fun p v => g p * roundAway v) patterns values).sum
  | [], values, _ => by simp
  | p :: patterns, [], _ => by simp
  | p :: patterns, v :: values, hnn => by
    rw [List.zipWith_cons_cons, List.zipWith_cons_cons, List.sum_cons, List.sum_cons,
      smul_sum_eq g patterns values
        (fun v' hv' => hnn v' (List.mem_cons_of_mem v hv'))]
    rw [nsmul_eq_mul, Int.toNat_of_nonneg (hnn v (List.mem_cons_self v values)),
      mul_comm]

end Alg

namespace Scaled

theorem mem_columnSticks_eq {stockLen kerf : ℚ} {p : List ℤ}
    {v : ℚ} {s : FStick} (h : s ∈ columnSticks stockLen kerf p v) :
    s = mkStick stockLen kerf p := by
  unfold columnSticks at h
  by_cases h0 : roundAway v = 0
  · rw [if_pos h0] at h
    exact absurd h (List.not_mem_nil s)
  · rw [if_neg h0] at h
    exact List.eq_of_mem_replicate h

theorem mem_decodeSticks {stockLen kerf : ℚ} {patterns : List (List ℤ)}
    {values : List ℚ} {s : FStick} (h : s ∈ decodeSticks stockLen kerf patterns values) :
    ∃ p ∈ patterns, s = mkStick stockLen kerf p := by
  obtain ⟨l, hl, hs⟩ := List.mem_flatten.mp h
  obtain ⟨p, hp, v, _, rfl⟩ := exists_of_mem_zipWith hl
  exact ⟨p, hp, mem_columnSticks_eq hs⟩

end Scaled

/-! Facts about the aggregator of `src/output.cpp`. -/

namespace Output

theorem addStick_count_sum :
    ∀ (m : List (List ℤ × FPattern)) (s : FStick),
      ((addStick m s).map fun e => e.2.count).sum =
        ((m.map fun e => e.2.count).sum) + 1
  | [], s => by simp [addStick, mkGroup]
  | (k, g) :: rest, s => by
    unfold addStick
    by_cases h : keyOf s = k
    · rw [if_pos h]
      simp only [List.map_cons, List.sum_cons]
      omega
    · rw [if_neg h]
      simp only [List.map_cons, List.sum_cons, addStick_count_sum rest s]
      omega

theorem foldl_count_sum :
    ∀ (l : List FStick) (m : List (List ℤ × FPattern)),
      ((l.foldl addStick m).map fun e => e.2.count).sum =
        ((m.map fun e => e.2.count).sum) + l.length
  | [], m => by simp
  | s :: l, m => by
    rw [List.foldl_cons, foldl_count_sum l (addStick m s), addStick_count_sum m s,
      List.length_cons]
    omega

theorem groupPatterns_count_sum (sticks : List FStick) :
    ((groupPatterns sticks).map fun g => g.count).sum = sticks.length := by
  unfold groupPatterns
  have hperm := (List.perm_insertionSort groupBefore
    ((sticks.foldl addStick []).map Prod.snd)).map fun g => g.count
  rw [hperm.sum_eq, List.map_map]
  have := foldl_count_sum sticks []
  simpa using this

theorem addStick_multiset (sticks : List FStick)
    (hkey : ∀ s1 ∈ sticks, ∀ s2 ∈ sticks, keyOf s1 = keyOf s2 →
      (↑s1.cuts : Multiset ℚ) = ↑s2.cuts) :
    ∀ (m : List (List ℤ × FPattern)) (s : FStick), s ∈ sticks →
      (∀ e ∈ m, ∃ s' ∈ sticks, keyOf s' = e.1 ∧ (↑e.2.cuts : Multiset ℚ) = ↑s'.cuts) →
      (∀ e ∈ addStick m s, ∃ s' ∈ sticks, keyOf s' = e.1 ∧
          (↑e.2.cuts : Multiset ℚ) = ↑s'.cuts) ∧
        ((addStick m s).map fun e => e.2.count • (↑e.2.cuts : Multiset ℚ)).sum =
          ((m.map fun e => e.2.count • (↑e.2.cuts : Multiset ℚ)).sum) + ↑s.cuts
  | [], s, hs, _ => by
    constructor
    · intro e he
      rw [addStick, List.mem_singleton] at he
      subst he
      exact ⟨s, hs, rfl,
        Multiset.coe_eq_coe.mpr (List.perm_insertionSort (· ≥ ·) s.cuts)⟩
    · rw [addStick]
      simp only [List.map_cons, List.map_nil, List.sum_cons, List.sum_nil, mkGroup]
      rw [one_nsmul, zero_add, add_zero]
      exact Multiset.coe_eq_coe.mpr (List.perm_insertionSort (· ≥ ·) s.cuts)
  | (k, g) :: rest, s, hs, hinv => by
    unfold addStick
    by_cases h : keyOf s = k
    · rw [if_pos h]
      obtain ⟨s', hs', hks', hcuts⟩ := hinv (k, g) (List.mem_cons_self _ rest)
      have hcc : (↑g.cuts : Multiset ℚ) = ↑s.cuts := by
        rw [hcuts]
        exact hkey s' hs' s hs (by rw [hks', h])
      constructor
      · intro e he
        rcases List.mem_cons.mp he with rfl | he'
        · exact ⟨s', hs', hks', hcuts⟩
        · exact hinv e (List.mem_cons_of_mem _ he')
      · simp only [List.map_cons, List.sum_cons]
        rw [succ_nsmul, hcc]
        exact add_right_comm _ _ _
    · rw [if_neg h]
      obtain ⟨hinv', hsum⟩ := addStick_multiset sticks hkey rest s hs
        (fun e he => hinv e (List.mem_cons_of_mem _ he))
      constructor
      · intro e he
        rcases List.mem_cons.mp he with rfl | he'
        · exact hinv (k, g) (List.mem_cons_self _ rest)
        · exact hinv' e he'
      · simp only [List.map_cons, List.sum_cons]
        rw [hsum, add_assoc]

theorem foldl_multiset (sticks : List FStick)
    (hkey : ∀ s1 ∈ sticks, ∀ s2 ∈ sticks, keyOf s1 = keyOf s2 →
      (↑s1.cuts : Multiset ℚ) = ↑s2.cuts) :
    ∀ (l : List FStick) (m : List (List ℤ × FPattern)),
      (∀ s ∈ l, s ∈ sticks) →
      (∀ e ∈ m, ∃ s' ∈ sticks, keyOf s' = e.1 ∧ (↑e.2.cuts : Multiset ℚ) = ↑s'.cuts) →
      ((l.foldl addStick m).map fun e => e.2.count • (↑e.2.cuts : Multiset ℚ)).sum =
        ((m.map fun e => e.2.count • (↑e.2.cuts : Multiset ℚ)).sum) +
          (l.map fun s => (↑s.cuts : Multiset ℚ)).sum
  | [], m, _, _ => by simp
  | s :: l, m, hl, hinv => by
    obtain ⟨hinv', hsum⟩ := addStick_multiset sticks hkey m s
      (hl s (List.mem_cons_self s l)) hinv
    rw [List.foldl_cons,
      foldl_multiset sticks hkey l (addStick m s)
        (fun s' hs' => hl s' (List.mem_cons_of_mem s hs')) hinv',
      hsum, List.map_cons, List.sum_cons]
    exact add_assoc _ _ _

theorem groupPatterns_multiset (sticks : List FStick)
    (hkey : ∀ s1 ∈ sticks, ∀ s2 ∈ sticks, keyOf s1 = keyOf s2 →
      (↑s1.cuts : Multiset ℚ) = ↑s2.cuts) :
    ((groupPatterns sticks).map fun g => g.count • (↑g.cuts : Multiset ℚ)).sum =
      (sticks.map fun s => (↑s.cuts : Multiset ℚ)).sum := by
  unfold groupPatterns
  have hperm := (List.perm_insertionSort groupBefore
    ((sticks.foldl addStick []).map Prod.snd)).map
      fun g => g.count • (↑g.cuts : Multiset ℚ)
  rw [hperm.sum_eq, List.map_map]
  have := foldl_multiset sticks hkey sticks [] (fun _ hs => hs) (by simp)
  simpa using this

end Output

/-! Claim theorems. -/

/-- C1: if the external solver returns per-pattern usage values that satisfy
the model's row constraints (production of every demanded length equals its
demand count) and its column lower bounds (no negative usage), then in the
Solution returned by `optimizeCutting` the number of cuts of each distinct
input length across all sticks equals exactly that length's demand count; and
the model builder sets each row's lower and upper bound both equal to that
row's demand count (in both implementations). -/
theorem c1_demand_exactness
    (solver : Alg.Model → Option (List ℚ)) (cuts : List ℤ) (stockLen : ℤ)
    (kerf : ℚ) (values : List ℚ)
    (hsolve : solver (Alg.buildModel cuts (Alg.generatePatterns cuts stockLen kerf)) =
      some values)
    (hnn : ∀ v ∈ values, 0 ≤ roundAway v)
    (hrow : ∀ L ∈ cuts.dedup,
      Alg.rowProduction (Alg.generatePatterns cuts stockLen kerf)
        (values.map roundAway) L = (cuts.count L : ℤ)) :
    (∀ L ∈ cuts.dedup,
      ((Alg.optimizeCutting solver cuts stockLen kerf).sticks.map
          fun s => s.cuts.count L).sum = cuts.count L) ∧
    (Alg.buildModel cuts (Alg.generatePatterns cuts stockLen kerf)).rowLower =
      (Alg.buildModel cuts (Alg.generatePatterns cuts stockLen kerf)).rowKeys.map
        (fun len => (cuts.count len : ℤ)) ∧
    (Alg.buildModel cuts (Alg.generatePatterns cuts stockLen kerf)).rowUpper =
      (Alg.buildModel cuts (Alg.generatePatterns cuts stockLen kerf)).rowKeys.map
        (fun len => (cuts.count len : ℤ)) ∧
    (∀ (scaledCuts : List ℤ), ∀ b ∈ Scaled.rowBounds scaledCuts,
      b.2.1 = (scaledCuts.count b.1 : ℤ) ∧ b.2.2 = (scaledCuts.count b.1 : ℤ)) := by
  have hoc : Alg.optimizeCutting solver cuts stockLen kerf =
      if Alg.generatePatterns cuts stockLen kerf = [] then Alg.emptySolution
      else
        match solver (Alg.buildModel cuts (Alg.generatePatterns cuts stockLen kerf)) with
        | none => Alg.emptySolution
        | some values => Alg.decodeSolution stockLen kerf
            (Alg.generatePatterns cuts stockLen kerf) values := rfl
  refine ⟨?_, rfl, rfl, ?_⟩
  · intro L hL
    by_cases hpat : Alg.generatePatterns cuts stockLen kerf = []
    · rw [hoc, if_pos hpat]
      have h0 := hrow L hL
      rw [hpat] at h0
      simp only [Alg.rowProduction, List.zipWith_nil_left, List.sum_nil] at h0
      have : cuts.count L = 0 := by exact_mod_cast h0.symm
      simp [Alg.emptySolution, this]
    · rw [hoc, if_neg hpat, hsolve]
      show ((Alg.decodeSolution stockLen kerf
          (Alg.generatePatterns cuts stockLen kerf) values).sticks.map
            fun s => s.cuts.count L).sum = cuts.count L
      rw [Alg.count_decodeSolution]
      have hz := Alg.cast_count_sum L (Alg.generatePatterns cuts stockLen kerf) values hnn
      rw [hrow L hL] at hz
      exact_mod_cast hz
  · intro scaledCuts b hb
    obtain ⟨len, _, rfl⟩ := List.mem_map.mp hb
    exact ⟨rfl, rfl⟩

/-- C1 witness: two cuts of length 10 on stock 20 with zero kerf; the single
maximal pattern holds both, usage 1 satisfies the row constraint, and the
decoded solution holds exactly two cuts of length 10. -/
theorem c1_demand_exactness_w :
    ((Alg.optimizeCutting (fun _ => some [1]) [10, 10] 20 0).sticks.map
        fun s => s.cuts.count 10).sum = ([10, 10] : List ℤ).count 10 :=
  (c1_demand_exactness (fun _ => some [1]) [10, 10] 20 0 [1] rfl (by decide)
    (by decide)).1 10 (by decide)

/-- C2 counterexample: in `src/algorithm.cpp` every piece, the first
included, must pay one kerf, so with kerf 1 the demanded length 100 does not
fit on stock 100 at all and the generator returns no pattern; the claimed
one-piece admissibility fails. -/
theorem c2_kerf_rule_cx :
    (100 : ℤ) ∈ ([100] : List ℤ) ∧ (100 : ℤ) ≤ 100 ∧
      Alg.generatePatterns [100] 100 1 = [] := by decide

/-- C2 amended: the claimed kerf rule holds for the scaled implementation in
`src/src/algorithm.cpp`: every pattern of k pieces satisfies
sum + (k-1)*kerf ≤ stock, and every demanded positive length not exceeding
the stock is admissible as a one-piece pattern.  In `src/algorithm.cpp` every
piece, the first included, pays one kerf: patterns satisfy the stronger bound
sum + k*kerf ≤ stock, and a lone piece needs length + kerf ≤ stock. -/
theorem c2_kerf_rule_amended :
    (∀ (availableCuts : List ℤ) (stockLen kerf : ℤ), 0 ≤ stockLen →
      ∀ p ∈ Scaled.generatePatterns availableCuts stockLen kerf,
        p.sum + ((p.length : ℤ) - 1) * kerf ≤ stockLen) ∧
    (∀ (availableCuts : List ℤ) (stockLen kerf L : ℤ),
      1 ≤ L → L ∈ availableCuts → L ≤ stockLen →
        [L] ∈ Scaled.generatePatterns availableCuts stockLen kerf) ∧
    (∀ (availableCuts : List ℤ) (stockLen : ℤ) (kerf : ℚ),
      (0 : ℚ) ≤ (stockLen : ℚ) →
      ∀ p ∈ Alg.generatePatterns availableCuts stockLen kerf,
        (p.sum : ℚ) + p.length * kerf ≤ (stockLen : ℚ)) := by
  refine ⟨?_, ?_, ?_⟩
  · intro availableCuts stockLen kerf hstock p hp
    exact Scaled.generatePatterns_cost hstock p hp
  · intro availableCuts stockLen kerf L hL1 hmem hfit
    exact Scaled.singleton_mem_generatePatterns hL1 hmem hfit
  · intro availableCuts stockLen kerf hstock p hp
    exact Alg.generatePatterns_sound hstock p hp

/-- C2 witness: stock 100, kerf 3, one demanded length 50: the scaled
generator admits the one-piece pattern [50], which satisfies the (k-1)-kerf
bound, and the unscaled generator's pattern [40, 60] on stock 100 with zero
kerf satisfies its bound. -/
theorem c2_kerf_rule_amended_w :
    ([50] : List ℤ).sum + ((([50] : List ℤ).length : ℤ) - 1) * 3 ≤ 100 ∧
    [50] ∈ Scaled.generatePatterns [50] 100 3 ∧
    (([40, 60] : List ℤ).sum : ℚ) + ([40, 60] : List ℤ).length * 0 ≤ ((100 : ℤ) : ℚ) :=
  ⟨c2_kerf_rule_amended.1 [50] 100 3 (by decide) [50] (by decide),
   c2_kerf_rule_amended.2.1 [50] 100 3 50 (by decide) (by decide) (by decide),
   c2_kerf_rule_amended.2.2 [60, 40] 100 0 (by norm_num) [40, 60] (by decide)⟩

/-- C3 counterexample: with cuts {60, 40, 20}, stock 100, kerf 0, the scaled
generator records the pattern [60] even though the demanded length 40 can
still be appended (60 + 40 + 0 ≤ 100): an extendable pattern appears in the
output. -/
theorem c3_maximal_cx :
    [60] ∈ Scaled.generatePatterns [60, 40, 20] 100 0 ∧
      (40 : ℤ) ∈ ([60, 40, 20] : List ℤ) ∧ (60 : ℤ) + (40 + 0) ≤ 100 := by decide

/-- C3 amended: `src/algorithm.cpp` yields only maximal patterns under its
own kerf accounting (each piece, the first included, costs length + kerf):
no demanded length can be appended to a returned pattern without exceeding
the stock length.  The scaled variant in `src/src/algorithm.cpp` records
every non-empty feasible combination, including extendable ones. -/
theorem c3_maximal_amended (availableCuts : List ℤ) (stockLen : ℤ) (kerf : ℚ) :
    ∀ p ∈ Alg.generatePatterns availableCuts stockLen kerf,
      ∀ L ∈ availableCuts,
        (stockLen : ℚ) < ((p.sum : ℚ) + p.length * kerf) + ((L : ℚ) + kerf) := by
  intro p hp L hL
  unfold Alg.generatePatterns at hp
  rw [mem_uniqAdj, List.mem_insertionSort] at hp
  obtain ⟨p0, hp0, rfl⟩ := List.mem_map.mp hp
  have huniq : L ∈ List.insertionSort (· ≥ ·) availableCuts.dedup :=
    (List.mem_insertionSort _).mpr (List.mem_dedup.mpr hL)
  have hne : List.insertionSort (· ≥ ·) availableCuts.dedup ≠ [] :=
    List.ne_nil_of_mem huniq
  obtain ⟨m, hlast⟩ : ∃ m, (List.insertionSort (· ≥ ·) availableCuts.dedup).getLast? = some m := by
    rw [List.getLast?_eq_getLast _ hne]
    exact ⟨_, rfl⟩
  have hmin : m ≤ L :=
    getLast?_le_of_sorted
      (List.sorted_insertionSort (· ≥ ·) availableCuts.dedup) hlast L huniq
  obtain ⟨q, hq, hlt⟩ :=
    Alg.node_max kerf m (stockLen.toNat + 1) _ (stockLen : ℚ) [] hlast p0 hp0
  rw [List.nil_append] at hq
  subst hq
  have hperm := Alg.preciseUsedLen_perm kerf (List.perm_insertionSort (· ≤ ·) p0)
  have hmq : (m : ℚ) ≤ (L : ℚ) := Int.cast_le.mpr hmin
  show (stockLen : ℚ) <
    Alg.preciseUsedLen kerf (List.insertionSort (· ≤ ·) p0) + ((L : ℚ) + kerf)
  rw [hperm]
  linarith

/-- C3 witness: for cuts {60, 40, 20}, stock 100, kerf 0, the returned
pattern [40, 60] cannot be extended by the demanded length 20. -/
theorem c3_maximal_amended_w :
    ((100 : ℤ) : ℚ) <
      ((([40, 60] : List ℤ).sum : ℚ) + ([40, 60] : List ℤ).length * 0) +
        (((20 : ℤ) : ℚ) + 0) :=
  c3_maximal_amended [60, 40, 20] 100 0 [40, 60] (by decide) 20 (by decide)

/-- C4 counterexample: in `src/algorithm.cpp` the decoder charges one kerf
per cut (`cutSlice.size() * kerf`), not one fewer: the stick decoded from the
one-cut pattern [50] with kerf 1 gets used length 51, not
50 + (1-1)*1 = 50. -/
theorem c4_used_len_cx :
    (Alg.optimizeCutting (fun _ => some [2]) [50, 50] 101 1).sticks.map
        (fun s => s.used_len) = [51, 51] ∧
      ¬((51 : ℤ) = 50 + (1 - 1) * 1) := by decide

/-- C4 amended: the claimed formula holds in `src/src/algorithm.cpp`: every
stick materialized from a non-empty pattern has used length equal to the sum
of its cut lengths plus (n-1) kerfs, and waste equal to stock length minus
used length.  In `src/algorithm.cpp` the used length is instead the rounding
of sum plus n kerfs (one kerf per cut, first cut included), with waste again
the stock length minus it. -/
theorem c4_used_len_amended :
    (∀ (stockLen kerf : ℚ) (patterns : List (List ℤ)) (values : List ℚ),
      ∀ s ∈ Scaled.decodeSticks stockLen kerf patterns values, s.cuts ≠ [] →
        s.used_len = s.cuts.sum + ((s.cuts.length : ℚ) - 1) * kerf ∧
        s.waste_len = s.stock_len - s.used_len) ∧
    (∀ (stockLen : ℤ) (kerf : ℚ) (patterns : List (List ℤ)) (values : List ℚ),
      ∀ s ∈ (Alg.decodeSolution stockLen kerf patterns values).sticks,
        s.used_len = roundAway ((s.cuts.sum : ℚ) + s.cuts.length * kerf) ∧
        s.waste_len = s.stock_len - s.used_len) := by
  constructor
  · intro stockLen kerf patterns values s hs hne
    obtain ⟨p, _, rfl⟩ := Scaled.mem_decodeSticks hs
    have hp : p ≠ [] := by
      intro h
      rw [h] at hne
      exact hne rfl
    refine ⟨?_, rfl⟩
    show Scaled.preciseUsedLen kerf p =
      (p.map fun c : ℤ => (c : ℚ) / (Scaled.PRECISION_SCALE : ℚ)).sum +
        (((p.map fun c : ℤ => (c : ℚ) / (Scaled.PRECISION_SCALE : ℚ)).length : ℚ) - 1) * kerf
    rw [Scaled.preciseUsedLen, if_neg hp]
    simp
  · intro stockLen kerf patterns values s hs
    obtain ⟨p, _, rfl⟩ := Alg.mem_decodeSolution_sticks hs
    exact ⟨rfl, rfl⟩

/-- C4 witness: the scaled stick for pattern [1024, 2048] (lengths 1 and 2
after unscaling) with kerf 1/8 on stock 100, and the unscaled stick for
pattern [50] with kerf 1 on stock 101. -/
theorem c4_used_len_amended_w :
    ((Scaled.mkStick 100 (1 / 8) [1024, 2048]).used_len =
        (Scaled.mkStick 100 (1 / 8) [1024, 2048]).cuts.sum +
          (((Scaled.mkStick 100 (1 / 8) [1024, 2048]).cuts.length : ℚ) - 1) * (1 / 8)) ∧
    ((Alg.mkStick 101 1 [50]).used_len =
      roundAway (((Alg.mkStick 101 1 [50]).cuts.sum : ℚ) +
        (Alg.mkStick 101 1 [50]).cuts.length * 1)) :=
  ⟨((c4_used_len_amended.1 100 (1 / 8) [[1024, 2048]] [1]
      (Scaled.mkStick 100 (1 / 8) [1024, 2048]) (by decide) (by decide)).1),
   ((c4_used_len_amended.2 101 1 [[50]] [2]
      (Alg.mkStick 101 1 [50]) (by decide)).1)⟩

/-- C5 counterexample: there is no separate `NoFeasiblePattern` value:
for the single cut 150 on stock 100 `optimizeCutting` returns the default
`Solution`, whose stick list is empty and whose stick count is zero, for
every possible solver. -/
theorem c5_no_pattern_cx :
    Alg.optimizeCutting (fun _ => none) [150] 100 0 = Alg.emptySolution ∧
      Alg.emptySolution.sticks = [] ∧ Alg.emptySolution.num_sticks = 0 := by decide

/-- C5 amended: when no demanded cut fits the stock under the kerf rule of
`src/algorithm.cpp`, `generatePatterns` returns the empty pattern list and
`optimizeCutting` returns the empty sentinel `Solution` early, for every
solver (the solver is never consulted); the failure is signalled by the
zero-stick sentinel plus a diagnostic, which the repository's callers map to
a "No solution found" error, not by a distinct `NoFeasiblePattern` value. -/
theorem c5_no_pattern_amended
    (solver : Alg.Model → Option (List ℚ)) (cuts : List ℤ) (stockLen : ℤ)
    (kerf : ℚ) (h : ∀ L ∈ cuts, ¬((L : ℚ) + kerf ≤ (stockLen : ℚ))) :
    Alg.generatePatterns cuts stockLen kerf = [] ∧
      Alg.optimizeCutting solver cuts stockLen kerf = Alg.emptySolution := by
  have h1 := Alg.generatePatterns_eq_nil h
  refine ⟨h1, ?_⟩
  have hoc : Alg.optimizeCutting solver cuts stockLen kerf =
      if Alg.generatePatterns cuts stockLen kerf = [] then Alg.emptySolution
      else
        match solver (Alg.buildModel cuts (Alg.generatePatterns cuts stockLen kerf)) with
        | none => Alg.emptySolution
        | some values => Alg.decodeSolution stockLen kerf
            (Alg.generatePatterns cuts stockLen kerf) values := rfl
  rw [hoc, if_pos h1]

/-- C5 witness: a single cut of 150 on stock 100 with zero kerf. -/
theorem c5_no_pattern_amended_w :
    Alg.generatePatterns [150] 100 0 = [] ∧
      Alg.optimizeCutting (fun _ => none) [150] 100 0 = Alg.emptySolution :=
  c5_no_pattern_amended (fun _ => none) [150] 100 0 (by decide)

/-- C6 counterexample: with cuts {10, 10, 10}, stock 20 and the fractional
kerf 3/8, the only pattern is [10]; usage 3 gives three sticks of rounded
used length 10, but the total waste is rounded from the precise total
(60 - 3*10.375 = 28.875, rounded to 29), which differs from
num_sticks * stock - sum(used_len) = 60 - 30 = 30. -/
theorem c6_waste_cx :
    (Alg.optimizeCutting (fun _ => some [3]) [10, 10, 10] 20 (3 / 8)).total_waste = 29 ∧
    (Alg.optimizeCutting (fun _ => some [3]) [10, 10, 10] 20 (3 / 8)).num_sticks * 20 -
      ((Alg.optimizeCutting (fun _ => some [3]) [10, 10, 10] 20 (3 / 8)).sticks.map
        fun s => s.used_len).sum = 30 := by decide

/-- C6 amended: every stick of a returned Solution has non-negative waste;
the total waste is the rounding of num_sticks * stock minus the precise
(unrounded) total used length, which coincides with
num_sticks * stock - sum(used_len) whenever the kerf is a whole number of
units, but can differ from it by rounding for fractional kerf. -/
theorem c6_waste_amended
    (solver : Alg.Model → Option (List ℚ)) (cuts : List ℤ) (stockLen : ℤ)
    (kerf : ℚ) (values : List ℚ) (hstock : 0 ≤ stockLen)
    (hsolve : solver (Alg.buildModel cuts (Alg.generatePatterns cuts stockLen kerf)) =
      some values)
    (hnn : ∀ v ∈ values, 0 ≤ roundAway v) :
    (∀ s ∈ (Alg.optimizeCutting solver cuts stockLen kerf).sticks,
      0 ≤ s.waste_len) ∧
    (kerf.den = 1 →
      (Alg.optimizeCutting solver cuts stockLen kerf).total_waste =
        (Alg.optimizeCutting solver cuts stockLen kerf).num_sticks * stockLen -
          ((Alg.optimizeCutting solver cuts stockLen kerf).sticks.map
            fun s => s.used_len).sum) := by
  have hoc : Alg.optimizeCutting solver cuts stockLen kerf =
      if Alg.generatePatterns cuts stockLen kerf = [] then Alg.emptySolution
      else
        match solver (Alg.buildModel cuts (Alg.generatePatterns cuts stockLen kerf)) with
        | none => Alg.emptySolution
        | some values => Alg.decodeSolution stockLen kerf
            (Alg.generatePatterns cuts stockLen kerf) values := rfl
  by_cases hpat : Alg.generatePatterns cuts stockLen kerf = []
  · rw [hoc, if_pos hpat]
    exact ⟨fun s hs => absurd hs (List.not_mem_nil s), fun _ => by
      simp [Alg.emptySolution]⟩
  · have hsol : Alg.optimizeCutting solver cuts stockLen kerf =
        Alg.decodeSolution stockLen kerf
          (Alg.generatePatterns cuts stockLen kerf) values := by
      rw [hoc, if_neg hpat, hsolve]
    rw [hsol]
    constructor
    · intro s hs
      obtain ⟨p, hp, rfl⟩ := Alg.mem_decodeSolution_sticks hs
      have hle : Alg.preciseUsedLen kerf p ≤ (stockLen : ℚ) :=
        Alg.generatePatterns_sound (by exact_mod_cast hstock) p hp
      have hra : roundAway (Alg.preciseUsedLen kerf p) ≤ stockLen :=
        roundAway_le_int hle hstock
      show 0 ≤ stockLen - roundAway (Alg.preciseUsedLen kerf p)
      omega
    · intro hden
      have hused : ((Alg.decodeSolution stockLen kerf
            (Alg.generatePatterns cuts stockLen kerf) values).sticks.map
              fun s => s.used_len).sum =
          (List.zipWith (fun p v => (p.sum + (p.length : ℤ) * kerf.num) * roundAway v)
            (Alg.generatePatterns cuts stockLen kerf) values).sum := by
        rw [Alg.decodeSolution_map_sum (fun s => s.used_len)]
        have hfun : (fun (p : List ℤ) (v : ℚ) =>
              (roundAway v).toNat • (Alg.mkStick stockLen kerf p).used_len) =
            fun p v => (roundAway v).toNat • (p.sum + (p.length : ℤ) * kerf.num) := by
          funext p v
          congr 1
          show roundAway (Alg.preciseUsedLen kerf p) = p.sum + (p.length : ℤ) * kerf.num
          rw [Alg.preciseUsedLen_intCast hden, roundAway_intCast]
        rw [hfun,
          Alg.smul_sum_eq (fun p => p.sum + (p.length : ℤ) * kerf.num)
            (Alg.generatePatterns cuts stockLen kerf) values hnn]
      rw [Alg.decodeSolution_total_waste, Alg.decodeSolution_num_sticks, hused,
        Alg.totalUsed_intCast hden]
      have hcast : (((Alg.decodeSolution stockLen kerf
            (Alg.generatePatterns cuts stockLen kerf) values).sticks.length : ℚ) *
              (stockLen : ℚ) -
            ((List.zipWith (fun p v => (p.sum + (p.length : ℤ) * kerf.num) * roundAway v)
              (Alg.generatePatterns cuts stockLen kerf) values).sum : ℚ)) =
          ((((Alg.decodeSolution stockLen kerf
            (Alg.generatePatterns cuts stockLen kerf) values).sticks.length : ℤ) *
              stockLen -
            (List.zipWith (fun p v => (p.sum + (p.length : ℤ) * kerf.num) * roundAway v)
              (Alg.generatePatterns cuts stockLen kerf) values).sum : ℤ) : ℚ) := by
        push_cast
        ring
      rw [hcast, roundAway_intCast]

/-- C6 witness: two cuts of 10 on stock 20, zero kerf (a whole number),
usage 1 of the single pattern [10, 10]. -/
theorem c6_waste_amended_w :
    (0 ≤ (Alg.mkStick 20 0 [10, 10]).waste_len) ∧
    ((Alg.optimizeCutting (fun _ => some [1]) [10, 10] 20 0).total_waste =
      (Alg.optimizeCutting (fun _ => some [1]) [10, 10] 20 0).num_sticks * 20 -
        ((Alg.optimizeCutting (fun _ => some [1]) [10, 10] 20 0).sticks.map
          fun s => s.used_len).sum) :=
  ⟨(c6_waste_amended (fun _ => some [1]) [10, 10] 20 0 [1] (by decide) rfl
      (by decide)).1 (Alg.mkStick 20 0 [10, 10]) (by decide),
   (c6_waste_amended (fun _ => some [1]) [10, 10] 20 0 [1] (by decide) rfl
      (by decide)).2 (by decide)⟩

/-- C7 counterexample: the scaled generator returns the non-maximal pattern
[20] on input {60, 40, 20}, stock 100, kerf 0, which is not among the five
claimed patterns, so its output set is not exactly those five. -/
theorem c7_scenario_cx :
    [20] ∈ Scaled.generatePatterns [60, 40, 20] 100 0 ∧
      [20] ∉ ([[20, 20, 20, 20, 20], [20, 20, 20, 40], [20, 20, 60],
        [20, 40, 40], [40, 60]] : List (List ℤ)) := by decide

/-- C7 amended: `src/algorithm.cpp` `generatePatterns` on {60, 40, 20} with
stock 100 and kerf 0 returns exactly the five claimed maximal patterns (as
sorted multisets); the scaled variant returns a strict superset also holding
every non-empty non-maximal combination. -/
theorem c7_scenario_amended :
    Alg.generatePatterns [60, 40, 20] 100 0 =
      [[20, 20, 20, 20, 20], [20, 20, 20, 40], [20, 20, 60],
        [20, 40, 40], [40, 60]] ∧
    (∀ p ∈ Alg.generatePatterns [60, 40, 20] 100 0,
      p ∈ Scaled.generatePatterns [60, 40, 20] 100 0) := by decide

/-- C7 witness: the maximal pattern [40, 60] of the unscaled generator also
appears in the scaled generator's output. -/
theorem c7_scenario_amended_w :
    [40, 60] ∈ Scaled.generatePatterns [60, 40, 20] 100 0 :=
  c7_scenario_amended.2 [40, 60] (by decide)

/-- C8 counterexample: two sticks whose lone cut lengths 1.000001 and
1.000002 differ by less than the 5-decimal display precision are merged into
one group keyed by the first stick, so the grouped multiset union loses the
length 1.000002: conservation of the cut multiset fails. -/
theorem c8_conservation_cx :
    ((Output.groupPatterns
        [⟨[1000001 / 1000000], 0, 0, 0⟩, ⟨[1000002 / 1000000], 0, 0, 0⟩]).map
      fun g => g.count • (↑g.cuts : Multiset ℚ)).sum ≠
    ([(⟨[1000001 / 1000000], 0, 0, 0⟩ : FStick), ⟨[1000002 / 1000000], 0, 0, 0⟩].map
      fun s => (↑s.cuts : Multiset ℚ)).sum := by decide

/-- C8 amended: the sum of the group counts always equals the number of
sticks; the multiset union of the groups' cut lists (with multiplicity)
equals the multiset union of the sticks' cut lists provided any two sticks
with the same 5-decimal display key carry the same cut multiset — which holds
for decoder output, where distinct lengths differ by at least 1/1024. -/
theorem c8_conservation_amended (sticks : List FStick) :
    ((Output.groupPatterns sticks).map fun g => g.count).sum = sticks.length ∧
    ((∀ s1 ∈ sticks, ∀ s2 ∈ sticks, Output.keyOf s1 = Output.keyOf s2 →
        (↑s1.cuts : Multiset ℚ) = ↑s2.cuts) →
      ((Output.groupPatterns sticks).map fun g => g.count • (↑g.cuts : Multiset ℚ)).sum =
        (sticks.map fun s => (↑s.cuts : Multiset ℚ)).sum) :=
  ⟨Output.groupPatterns_count_sum sticks,
   fun hkey => Output.groupPatterns_multiset sticks hkey⟩

/-- C8 witness: two identical sticks are grouped into one group of count 2
and the cut multiset is conserved. -/
theorem c8_conservation_amended_w :
    ((Output.groupPatterns [⟨[5, 3], 20, 8, 12⟩, ⟨[5, 3], 20, 8, 12⟩]).map
        fun g => g.count).sum =
      ([(⟨[5, 3], 20, 8, 12⟩ : FStick), ⟨[5, 3], 20, 8, 12⟩] : List FStick).length ∧
    ((Output.groupPatterns [⟨[5, 3], 20, 8, 12⟩, ⟨[5, 3], 20, 8, 12⟩]).map
        fun g => g.count • (↑g.cuts : Multiset ℚ)).sum =
      ([(⟨[5, 3], 20, 8, 12⟩ : FStick), ⟨[5, 3], 20, 8, 12⟩].map
        fun s => (↑s.cuts : Multiset ℚ)).sum :=
  ⟨(c8_conservation_amended [⟨[5, 3], 20, 8, 12⟩, ⟨[5, 3], 20, 8, 12⟩]).1,
   (c8_conservation_amended [⟨[5, 3], 20, 8, 12⟩, ⟨[5, 3], 20, 8, 12⟩]).2 (by decide)⟩

/-- C9: both decoders round each solver column value to the nearest integer
(half away from zero, so any value strictly between -1/2 and 1/2 counts as
zero, never as negative usage); a column whose rounded usage is zero
contributes no stick, and a column with positive rounded usage n contributes
exactly n sticks carrying that pattern's cuts. -/
theorem c9_decoder_rounding :
    (∀ v : ℚ, -(1 / 2) < v → v < 1 / 2 → roundAway v = 0) ∧
    (∀ (stockLen : ℤ) (kerf : ℚ) (p : List ℤ) (v : ℚ),
      (roundAway v = 0 → Alg.columnSticks stockLen kerf p v = []) ∧
      (0 < roundAway v →
        (Alg.columnSticks stockLen kerf p v).length = (roundAway v).toNat ∧
        ∀ s ∈ Alg.columnSticks stockLen kerf p v, s.cuts = p)) ∧
    (∀ (stockLen kerf : ℚ) (p : List ℤ) (v : ℚ),
      (roundAway v = 0 → Scaled.columnSticks stockLen kerf p v = []) ∧
      (0 < roundAway v →
        (Scaled.columnSticks stockLen kerf p v).length = (roundAway v).toNat ∧
        ∀ s ∈ Scaled.columnSticks stockLen kerf p v,
          s.cuts = p.map fun c : ℤ => (c : ℚ) / (Scaled.PRECISION_SCALE : ℚ))) := by
  refine ⟨fun v h1 h2 => roundAway_eq_zero h1 h2, ?_, ?_⟩
  · intro stockLen kerf p v
    constructor
    · intro h0
      rw [Alg.columnSticks, if_pos h0]
    · intro hpos
      rw [Alg.columnSticks, if_neg (by omega)]
      exact ⟨List.length_replicate _ _, fun s hs => by
        rw [List.eq_of_mem_replicate hs]; rfl⟩
  · intro stockLen kerf p v
    constructor
    · intro h0
      rw [Scaled.columnSticks, if_pos h0]
    · intro hpos
      rw [Scaled.columnSticks, if_neg (by omega)]
      exact ⟨List.length_replicate _ _, fun s hs => by
        rw [List.eq_of_mem_replicate hs]; rfl⟩

/-- C9 witness: 2/5 rounds to zero and contributes no stick; 2 contributes
two sticks carrying the pattern's cuts. -/
theorem c9_decoder_rounding_w :
    roundAway (2 / 5) = 0 ∧
    Alg.columnSticks 100 0 [10] (2 / 5) = [] ∧
    (Alg.columnSticks 100 0 [10] 2).length = ((2 : ℤ)).toNat ∧
    (Scaled.columnSticks 100 (1 / 8) [10240] 2).length = ((2 : ℤ)).toNat :=
  ⟨c9_decoder_rounding.1 (2 / 5) (by norm_num) (by norm_num),
   (c9_decoder_rounding.2.1 100 0 [10] (2 / 5)).1 (by decide),
   (by
     have h := ((c9_decoder_rounding.2.1 100 0 [10] 2).2 (by decide)).1
     rwa [show roundAway 2 = 2 by decide] at h),
   (by
     have h := ((c9_decoder_rounding.2.2 100 (1 / 8) [10240] 2).2 (by decide)).1
     rwa [show roundAway 2 = 2 by decide] at h)⟩

/-- C10: neither generator ever returns an empty pattern: every pattern in
the output of either `generatePatterns` holds at least one cut length. -/
theorem c10_no_empty_pattern :
    (∀ (availableCuts : List ℤ) (stockLen : ℤ) (kerf : ℚ),
      ∀ p ∈ Alg.generatePatterns availableCuts stockLen kerf, p ≠ []) ∧
    (∀ (availableCuts : List ℤ) (stockLen kerf : ℤ),
      ∀ p ∈ Scaled.generatePatterns availableCuts stockLen kerf, p ≠ []) := by
  constructor
  · intro availableCuts stockLen kerf p hp
    unfold Alg.generatePatterns at hp
    rw [mem_uniqAdj, List.mem_insertionSort] at hp
    obtain ⟨p0, hp0, rfl⟩ := List.mem_map.mp hp
    intro hnil
    have hperm := List.perm_insertionSort (· ≤ ·) p0
    rw [hnil] at hperm
    exact Alg.node_ne_nil kerf (stockLen.toNat + 1) _ (stockLen : ℚ) [] p0 hp0
      hperm.symm.eq_nil
  · intro availableCuts stockLen kerf p hp
    unfold Scaled.generatePatterns at hp
    rw [mem_uniqAdj, List.mem_insertionSort] at hp
    obtain ⟨p0, hp0, rfl⟩ := List.mem_map.mp hp
    intro hnil
    have hperm := List.perm_insertionSort (· ≤ ·) p0
    rw [hnil] at hperm
    exact Scaled.node_nonnil kerf (stockLen.toNat + 1) _ stockLen [] p0 hp0
      hperm.symm.eq_nil

/-- C10 witness: concrete patterns from both generators are non-empty. -/
theorem c10_no_empty_pattern_w :
    ([40, 60] : List ℤ) ≠ [] ∧ ([20] : List ℤ) ≠ [] :=
  ⟨c10_no_empty_pattern.1 [60, 40, 20] 100 0 [40, 60] (by decide),
   c10_no_empty_pattern.2 [60, 40, 20] 100 0 [20] (by decide)⟩

end CutStock
